import Mathlib

/-!
Verification development for the Disc-Up repository (xxh-diff parallel
incremental file differ).  The definitions below are a shallow embedding of
the Rust sources:

* `src/xxh-diff/src/data_fmt.rs`   — the append-only binary hash log
  (`XxhDiffData`, `ReadXxhDiffDataInner`, `ReadStatus`, `DataErr`,
  `XxhDiffData::read`, `XxhDiffData::write`, `XxhDiffData::reset`);
* `src/xxh-diff/src/raw_path_bytes.rs` — the raw path byte codec
  (`RawPathBytes for PathBuf`, unix and windows impls);
* `src/xxh-diff/src/paths.rs`      — the walker gating closure `maybe_send`;
* `src/xxh-diff/src/main.rs`       — the Coordinator's corruption-fallback
  block (lines 358–393);
* `src/xxh-diff/src/parallel_hash.rs` and `src/sema-lot/src/lib.rs` — the
  hash-worker file-descriptor discipline, modelled as a transition system.

The embedding fixes the 64-bit unix configuration of the source
(`usize::BITS = 64`, paths are byte sequences), which is the configuration
the on-disk format constants `U64_BYTES`, `USIZE_BYTES` and `HEAD_SIZE`
depend on.  A file is a list of bytes (`Nat`, values < 256 where produced by
the writer) together with the stream position of its single shared cursor;
append-mode writes append at the end and leave the cursor at the new end,
exactly as `O_APPEND` does for the `File` handles the source opens.  Error
payload strings carried by `DataErr::IOErr` / `DataErr::ParseErr` are
dropped; only the constructor (which the claims are about) is kept.
-/

/-- On-disk width of a `u64` in bytes (`data_fmt.rs` line 59). -/
def U64_BYTES : Nat := 8

/-- On-disk width of a `usize` in bytes on a 64-bit host (`data_fmt.rs` line 60). -/
def USIZE_BYTES : Nat := 8

/-- Fixed record-header size `HEAD_SIZE = U64_BYTES + USIZE_BYTES` (`data_fmt.rs` line 61). -/
def HEAD_SIZE : Nat := U64_BYTES + USIZE_BYTES

/-- Little-endian encoding of `v` into exactly `n` bytes, least significant
first; models `u64::to_le_bytes` / `usize::to_le_bytes` (values are taken
mod 2^(8n), which is what the fixed-width machine integers enforce). -/
def toLE : Nat → Nat → List Nat
  | 0, _ => []
  | n + 1, v => v % 256 :: toLE n (v / 256)

/-- Little-endian decoding of a byte list; models `u64::from_le_bytes` /
`usize::from_le_bytes`. -/
def fromLE : List Nat → Nat
  | [] => 0
  | b :: bs => b + 256 * fromLE bs

/-- A `(path, hash)` record; models `HashResult(pub PathBuf, pub u64)` from
`data_fmt.rs`.  On unix a `PathBuf` is its byte sequence. -/
structure HashResult where
  path : List Nat
  hash : Nat
deriving DecidableEq, Repr

/-- Reader status; models `ReadStatus` from `data_fmt.rs`. -/
inductive ReadStatus
  | Open
  | Stopped
  | Error
deriving DecidableEq, Repr

/-- Models `ReadStatus::is_stop` (`data_fmt.rs` lines 22–24). -/
def ReadStatus.is_stop : ReadStatus → Bool
  | .Open => false
  | _ => true

/-- Models `ReadStatus::is_err` (`data_fmt.rs` lines 26–28). -/
def ReadStatus.is_err : ReadStatus → Bool
  | .Error => true
  | _ => false

/-- Reader-side state; models `ReadXxhDiffDataInner` from `data_fmt.rs`. -/
structure ReadXxhDiffDataInner where
  status : ReadStatus
  initial_len : Nat
  cursor_pos : Option Nat
deriving DecidableEq, Repr

/-- Handle mode; models the `XxhDiffData` enum from `data_fmt.rs` (the `File`
component lives separately in `FileState`). -/
inductive XxhDiffData
  | Read (inner : ReadXxhDiffDataInner)
  | Write
deriving DecidableEq, Repr

/-- The backing file: its byte contents and the current stream position of
the shared cursor. -/
structure FileState where
  data : List Nat
  pos : Nat
deriving DecidableEq, Repr

/-- A log handle together with its backing file. -/
structure LogState where
  handle : XxhDiffData
  file : FileState
deriving DecidableEq, Repr

/-- Read error kinds; models `DataErr` from `data_fmt.rs` (payload strings
dropped). -/
inductive DataErr
  | Empty
  | IOErr
  | ParseErr
deriving DecidableEq, Repr

/-- Models `Read::read_exact` over the in-memory file: succeeds returning
exactly `n` bytes starting at offset `p` iff the file holds them, and fails
(with `UnexpectedEof`) otherwise. -/
def readBytes (data : List Nat) (p n : Nat) : Option (List Nat) :=
  if p + n ≤ data.length then some ((data.drop p).take n) else none

/-- Outcome of one record-parse attempt at a file offset, before the
`initial_len` bookkeeping: the three ways the body of `XxhDiffData::read`
(`data_fmt.rs` lines 145–193) can leave the byte stream. The carried `Nat`
is the resulting stream position. -/
inductive ReadOutcome
  | ioErr (newPos : Nat)
  | parseErr (newPos : Nat)
  | okRec (r : HashResult) (newPos : Nat)
deriving DecidableEq, Repr

/-- One record-parse attempt starting at offset `p`, following
`XxhDiffData::read` (`data_fmt.rs` lines 145–193): read one length byte,
read that many header bytes, require the header length to equal
`HEAD_SIZE`, decode hash and path length little-endian, then read the path
bytes (on unix `PathBuf::try_from_bytes` never fails). -/
def parseAt (data : List Nat) (p : Nat) : ReadOutcome :=
  match readBytes data p 1 with
  | none => .ioErr p
  | some hl =>
    match readBytes data (p + 1) hl.headI with
    | none => .ioErr (p + 1)
    | some head =>
      if head.length = HEAD_SIZE then
        match readBytes data (p + 1 + hl.headI) (fromLE (head.drop U64_BYTES)) with
        | none => .ioErr (p + 1 + hl.headI)
        | some path_buf =>
          .okRec ⟨path_buf, fromLE (head.take U64_BYTES)⟩
            (p + 1 + hl.headI + fromLE (head.drop U64_BYTES))
      else .parseErr (p + 1 + hl.headI)

/-- Models `XxhDiffData::read` (`data_fmt.rs` lines 123–206).  A `Write`
handle returns `Empty`; a stopped reader returns `Empty` without touching
the file; otherwise the reader seeks to a saved cursor if one is pending,
parses one record, and applies the `initial_len` stop logic: a parse
position at or past `initial_len` flips the status to `Stopped`, and
strictly past additionally turns the result into `Empty`.  Any IO or parse
failure flips the status to `Error`. -/
def readLog (s : LogState) : Except DataErr HashResult × LogState :=
  match s with
  | ⟨.Write, f⟩ => (.error .Empty, ⟨.Write, f⟩)
  | ⟨.Read inner, f⟩ =>
    if inner.status.is_stop then (.error .Empty, ⟨.Read inner, f⟩)
    else
      let p := inner.cursor_pos.getD f.pos
      match parseAt f.data p with
      | .ioErr q =>
        (.error .IOErr, ⟨.Read ⟨.Error, inner.initial_len, none⟩, ⟨f.data, q⟩⟩)
      | .parseErr q =>
        (.error .ParseErr, ⟨.Read ⟨.Error, inner.initial_len, none⟩, ⟨f.data, q⟩⟩)
      | .okRec r q =>
        if inner.initial_len ≤ q then
          if inner.initial_len < q then
            (.error .Empty, ⟨.Read ⟨.Stopped, inner.initial_len, none⟩, ⟨f.data, q⟩⟩)
          else
            (.ok r, ⟨.Read ⟨.Stopped, inner.initial_len, none⟩, ⟨f.data, q⟩⟩)
        else
          (.ok r, ⟨.Read ⟨.Open, inner.initial_len, none⟩, ⟨f.data, q⟩⟩)

/-- On-disk encoding of one record, as emitted by the writer loop of
`XxhDiffData::write` (`data_fmt.rs` lines 223–246): `HEAD_SIZE` byte, hash
little-endian, path length little-endian, raw path bytes. -/
def encodeResult (r : HashResult) : List Nat :=
  HEAD_SIZE :: (toLE U64_BYTES r.hash ++ (toLE USIZE_BYTES r.path.length ++ r.path))

/-- Concatenated encoding of a batch of records. -/
def encodeList (rs : List HashResult) : List Nat :=
  (rs.map encodeResult).flatten

/-- Models `XxhDiffData::write` (`data_fmt.rs` lines 208–249): an empty
batch is a no-op; otherwise, on a `Read` handle the current read cursor is
saved first (unless one is already saved), then every record is appended
(append mode writes at the end of the file and leaves the stream position
there) and the file is flushed. -/
def writeLog (results : List HashResult) (s : LogState) :
    Except DataErr Unit × LogState :=
  if results.isEmpty then (.ok (), s)
  else
    match s with
    | ⟨.Read inner, f⟩ =>
      let saved : Option Nat :=
        match inner.cursor_pos with
        | none => some f.pos
        | some c => some c
      let data' := f.data ++ encodeList results
      (.ok (), ⟨.Read ⟨inner.status, inner.initial_len, saved⟩, ⟨data', data'.length⟩⟩)
    | ⟨.Write, f⟩ =>
      let data' := f.data ++ encodeList results
      (.ok (), ⟨.Write, ⟨data', data'.length⟩⟩)

/-- Models opening a log in read mode (`ReadXxhDiffDataInner::new`,
`data_fmt.rs` lines 38–51): `initial_len` is the file length captured at
open time, the status starts `Stopped` on an empty file and `Open`
otherwise, and the cursor is rewound to the start. -/
def openRead (d : List Nat) : LogState :=
  ⟨.Read ⟨if d.length = 0 then .Stopped else .Open, d.length, none⟩, ⟨d, 0⟩⟩

/-- A freshly created (empty) write-mode log, as produced by
`XxhDiffData::new` with `read_required = false` on a new file. -/
def freshWrite : LogState := ⟨.Write, ⟨[], 0⟩⟩

/-- Models `XxhDiffData::reset` (`data_fmt.rs` lines 109–117): truncate to
zero length and open for write. -/
def resetLog : LogState := ⟨.Write, ⟨[], 0⟩⟩

/-- Perform `n` successive `read()` calls, collecting each call's result. -/
def readMany : Nat → LogState → List (Except DataErr HashResult) × LogState
  | 0, s => ([], s)
  | n + 1, s =>
    ((readLog s).1 :: (readMany n (readLog s).2).1, (readMany n (readLog s).2).2)

/-- One operation against a shared log handle: a `read()` call or a
`write(entries)` call. -/
inductive LogOp
  | rd
  | wr (es : List HashResult)
deriving Repr

/-- Whether an operation is a `read()`. -/
def LogOp.isRead : LogOp → Bool
  | .rd => true
  | .wr _ => false

/-- Run a sequence of interleaved reads and writes against a log handle,
collecting the records the `read()` calls return. -/
def runOps : List LogOp → LogState → List HashResult × LogState
  | [], s => ([], s)
  | .rd :: ops, s =>
    ((match (readLog s).1 with
      | .ok h => h :: (runOps ops (readLog s).2).1
      | .error _ => (runOps ops (readLog s).2).1),
     (runOps ops (readLog s).2).2)
  | .wr es :: ops, s => runOps ops (writeLog es s).2

/-- Simulation relation between a log handle subjected to interleaved
appends (`s₁`) and the same handle left untouched by writes (`s₂`), both
opened over the original file contents `d`.  Both are read handles on a
file whose open-time length is `d.length`; the write-free side holds
exactly `d` while the written side holds `d` plus appended bytes; either
both readers have already stopped, or they share a status and an effective
read position (the saved cursor if one is pending, else the stream
position). -/
def Sim (d : List Nat) (s₁ s₂ : LogState) : Prop :=
  ∃ inner₁ inner₂ extra,
    s₁.handle = .Read inner₁ ∧ s₂.handle = .Read inner₂ ∧
    inner₁.initial_len = d.length ∧ inner₂.initial_len = d.length ∧
    s₁.file.data = d ++ extra ∧ s₂.file.data = d ∧
    ((inner₁.status.is_stop = true ∧ inner₂.status.is_stop = true) ∨
     (inner₁.status = inner₂.status ∧
      inner₁.cursor_pos.getD s₁.file.pos = inner₂.cursor_pos.getD s₂.file.pos))

/-!  Raw path byte codec, from `src/xxh-diff/src/raw_path_bytes.rs`.

On unix a path is already a byte sequence and the codec is the identity
(`raw_path_bytes.rs` lines 38–47).  On windows a path is a sequence of
16-bit code units; `try_as_bytes` reinterprets them as bytes in
little-endian in-memory order (the `u16 → u8` view of `align_to` always
splits exactly), and `try_from_bytes` reinterprets bytes as code units,
failing on a length mismatch (`raw_path_bytes.rs` lines 16–36; the
pointer-alignment failure of `align_to::<u16>` is a memory-layout detail
with no counterpart in a byte-list model). -/

/-- Unix `try_as_bytes`: the identity serialization. -/
def try_as_bytes_unix (p : List Nat) : Except (List Nat) (List Nat) := .ok p

/-- Unix `try_from_bytes`: the identity deserialization. -/
def try_from_bytes_unix (bytes : List Nat) : Except (List Nat) (List Nat) := .ok bytes

/-- Windows view of a code-unit sequence as raw bytes, little-endian. -/
def wideToBytes : List Nat → List Nat
  | [] => []
  | u :: us => u % 256 :: (u / 256 % 256 :: wideToBytes us)

/-- Windows view of raw bytes as code units; fails (returning `none`) when
the byte count is odd. -/
def bytesToWide : List Nat → Option (List Nat)
  | [] => some []
  | [_] => none
  | a :: b :: rest => (bytesToWide rest).map (fun ws => (a + 256 * b) :: ws)

/-- Windows `try_as_bytes`. -/
def try_as_bytes_windows (p : List Nat) : Except (List Nat) (List Nat) :=
  .ok (wideToBytes p)

/-- Windows `try_from_bytes`. -/
def try_from_bytes_windows (bytes : List Nat) : Except (List Nat) (List Nat) :=
  match bytesToWide bytes with
  | some ws => .ok ws
  | none => .error bytes

/-!  Walker gating, from `src/xxh-diff/src/paths.rs` lines 34–46.

The closure `maybe_send` loops: if the path is in the shared
`existing_hashes` map it returns `false` (the path is dropped); else if
`read_done` is set it breaks out, sends the path and returns `true`; else
it parks until unparked and re-checks.  We model the walker's successive
observations of the pair `(path ∈ PriorHashMap, read_done)` as a trace:
the first element is what the initial check sees and every later element
is what the re-check after one unpark signal sees.  The result is
`some sent?` if some check decides, `none` if the trace ends with the
walker still parked. -/
def maybe_send : List (Bool × Bool) → Option Bool
  | [] => none
  | (inMap, done) :: rest =>
    if inMap then some false
    else if done then some true
    else maybe_send rest

/-!  Coordinator corruption fallback, from `src/xxh-diff/src/main.rs`
lines 358–393.

`new_results` is `some hashes` while the recovery is still armed (it is
armed at boot exactly when the output log opened in read mode) and records
every entry observed this run; once `read_done` is observed and the output
handle is still in read mode, the Coordinator inspects the reader status:
on `Error` it resets the output log and rewrites the union of
`existing_hashes` (the prior map) and `hashes`, and in every case it
disarms by setting `new_results` to `None`. -/

/-- Coordinator-side state for the corruption fallback. -/
structure CoordState where
  newResults : Option (List HashResult)
  readDone : Bool
  out : LogState
deriving Repr

/-- One evaluation of the fallback block at the bottom of the Coordinator
select loop (`main.rs` lines 358–393), with `existing` the snapshot of
`existing_hashes` taken when rewriting. -/
def fallbackStep (existing : List HashResult) (s : CoordState) : CoordState :=
  match s.newResults with
  | none => s
  | some hashes =>
    if s.readDone then
      match s.out.handle with
      | .Read inner =>
        if inner.status.is_err then
          ⟨none, s.readDone, (writeLog (existing ++ hashes) resetLog).2⟩
        else ⟨none, s.readDone, s.out⟩
      | .Write => s
    else s

/-!  File-descriptor budget, from `src/xxh-diff/src/parallel_hash.rs`
(`hash_paths`, lines 114–160) and `src/sema-lot/src/lib.rs`
(`Semaphore`).

Each hash worker's interaction with user files is: acquire a semaphore
guard (`fd_sem.try_access()` / `fd_sem.access()`), open the file
(`File::open`) inside the guard scope, read and hash it, then drop the
file followed by the guard (`release`).  The semaphore only ever
decrements its count when it is positive (the compare-exchange in
`Semaphore::acquire` and `Semaphore::try_acquire`) and `release`
increments it.  We model the pool as a transition system over the permit
count and the multiset of worker phases; `File::open` of a user file is
only possible in the `acquired` phase, which is the source's discipline:
the hash worker is the only code that opens user files, and only while
holding a guard. -/

/-- Phase of one hash worker with respect to the FD budget. -/
inductive WorkerPhase
  | idle
  | acquired
  | opened
deriving DecidableEq, Repr

/-- Pool state: available semaphore permits and the phases of the live
workers. -/
structure PoolState where
  permits : Int
  workers : Multiset WorkerPhase
deriving DecidableEq

/-- Transitions of the hashing pool.  `spawn`/`halt` are the controller
starting and retiring workers; `acquire` is a successful
`Semaphore::acquire`/`try_acquire` (only enabled while the count is
positive); `openFile` is `File::open` under the guard; `closeFile` drops
the file handle; `release` is the guard drop incrementing the count. -/
inductive PoolStep : PoolState → PoolState → Prop
  | spawn (c : Int) (ws : Multiset WorkerPhase) :
      PoolStep ⟨c, ws⟩ ⟨c, WorkerPhase.idle ::ₘ ws⟩
  | halt (c : Int) (ws : Multiset WorkerPhase) (h : WorkerPhase.idle ∈ ws) :
      PoolStep ⟨c, ws⟩ ⟨c, ws.erase WorkerPhase.idle⟩
  | acquire (c : Int) (ws : Multiset WorkerPhase) (hc : 0 < c)
      (h : WorkerPhase.idle ∈ ws) :
      PoolStep ⟨c, ws⟩ ⟨c - 1, WorkerPhase.acquired ::ₘ ws.erase WorkerPhase.idle⟩
  | openFile (c : Int) (ws : Multiset WorkerPhase) (h : WorkerPhase.acquired ∈ ws) :
      PoolStep ⟨c, ws⟩ ⟨c, WorkerPhase.opened ::ₘ ws.erase WorkerPhase.acquired⟩
  | closeFile (c : Int) (ws : Multiset WorkerPhase) (h : WorkerPhase.opened ∈ ws) :
      PoolStep ⟨c, ws⟩ ⟨c, WorkerPhase.acquired ::ₘ ws.erase WorkerPhase.opened⟩
  | release (c : Int) (ws : Multiset WorkerPhase) (h : WorkerPhase.acquired ∈ ws) :
      PoolStep ⟨c, ws⟩ ⟨c + 1, ws.erase WorkerPhase.acquired⟩

/-- Number of simultaneously open hash-worker files. -/
def numOpen (ws : Multiset WorkerPhase) : Nat := ws.count WorkerPhase.opened

/-- Number of workers currently holding a semaphore guard. -/
def numBusy (ws : Multiset WorkerPhase) : Nat :=
  ws.count WorkerPhase.acquired + ws.count WorkerPhase.opened

/-- The semaphore safety invariant: the count never goes negative and held
guards plus available permits add up to the initial budget. -/
def PoolInv (maxOpen : Int) (s : PoolState) : Prop :=
  0 ≤ s.permits ∧ s.permits + (numBusy s.workers : Int) = maxOpen

/-- Pool states reachable during a run started with budget `maxOpen`
(`Semaphore::new(max_files_open)` with no workers yet). -/
def PoolReachable (maxOpen : Int) (s : PoolState) : Prop :=
  Relation.ReflTransGen PoolStep ⟨maxOpen, 0⟩ s

/-! ### Helper lemmas: bytes, little-endian codec, record encoding -/

theorem length_toLE (n v : Nat) : (toLE n v).length = n := by
  induction n generalizing v with
  | zero => rfl
  | succ n ih => simp [toLE, ih]

theorem fromLE_toLE {n v : Nat} (h : v < 256 ^ n) : fromLE (toLE n v) = v := by
  induction n generalizing v with
  | zero =>
    simp only [pow_zero, Nat.lt_one_iff] at h
    simp [toLE, fromLE, h]
  | succ n ih =>
    have hdiv : v / 256 < 256 ^ n := by
      rw [Nat.div_lt_iff_lt_mul (by norm_num)]
      calc v < 256 ^ (n + 1) := h
        _ = 256 ^ n * 256 := by ring
    simp [toLE, fromLE, ih hdiv, Nat.mod_add_div]

theorem encodeResult_length (r : HashResult) :
    (encodeResult r).length = 17 + r.path.length := by
  simp [encodeResult, length_toLE, U64_BYTES, USIZE_BYTES]
  omega

theorem readBytes_some_len {d : List Nat} {p n : Nat} {bs : List Nat}
    (h : readBytes d p n = some bs) : bs.length = n ∧ p + n ≤ d.length := by
  unfold readBytes at h
  split at h
  · cases h
    refine ⟨?_, by omega⟩
    simp [List.length_take, List.length_drop]
    omega
  · cases h

theorem take_drop_of_append {d e : List Nat} {p n : Nat} (h : p + n ≤ d.length) :
    ((d ++ e).drop p).take n = (d.drop p).take n := by
  rw [List.drop_append_eq_append_drop, List.take_append_eq_append_take]
  have h1 : p - d.length = 0 := by omega
  have h2 : n - (d.length - p) = 0 := by omega
  simp [h1, h2, List.length_drop]

theorem readBytes_append {d e : List Nat} {p n : Nat} {bs : List Nat}
    (h : readBytes d p n = some bs) : readBytes (d ++ e) p n = some bs := by
  have hle := (readBytes_some_len h).2
  unfold readBytes at h ⊢
  rw [if_pos hle] at h
  rw [if_pos (by simp; omega)]
  rw [take_drop_of_append hle]
  exact h

theorem readBytes_of_append {d e : List Nat} {p n : Nat} {bs : List Nat}
    (h : readBytes (d ++ e) p n = some bs) (hle : p + n ≤ d.length) :
    readBytes d p n = some bs := by
  unfold readBytes at h ⊢
  rw [if_pos (by simp; omega)] at h
  rw [if_pos hle]
  rw [take_drop_of_append hle] at h
  exact h

theorem parse_ok_le {d : List Nat} {p : Nat} {r : HashResult} {q : Nat}
    (h : parseAt d p = .okRec r q) : p < q ∧ q ≤ d.length := by
  unfold parseAt at h
  split at h
  · cases h
  case h_2 hl hb1 =>
    split at h
    · cases h
    case h_2 head hb2 =>
      split at h
      · split at h
        · cases h
        case h_2 pb hb3 =>
          cases h
          have h3 := (readBytes_some_len hb3).2
          constructor <;> omega
      · cases h

theorem parse_mono {d e : List Nat} {p : Nat} {r : HashResult} {q : Nat}
    (h : parseAt d p = .okRec r q) : parseAt (d ++ e) p = .okRec r q := by
  unfold parseAt at h ⊢
  split at h
  · cases h
  case h_2 hl hb1 =>
    rw [readBytes_append hb1]
    dsimp only
    split at h
    · cases h
    case h_2 head hb2 =>
      rw [readBytes_append hb2]
      dsimp only
      split at h
      case isTrue hh =>
        rw [if_pos hh]
        split at h
        · cases h
        case h_2 pb hb3 =>
          rw [readBytes_append hb3]
          exact h
      case isFalse hh => cases h

theorem parse_perr_mono {d e : List Nat} {p q : Nat}
    (h : parseAt d p = .parseErr q) : parseAt (d ++ e) p = .parseErr q := by
  unfold parseAt at h ⊢
  split at h
  · cases h
  case h_2 hl hb1 =>
    rw [readBytes_append hb1]
    dsimp only
    split at h
    · cases h
    case h_2 head hb2 =>
      rw [readBytes_append hb2]
      dsimp only
      split at h
      case isTrue hh =>
        split at h <;> cases h
      case isFalse hh =>
        rw [if_neg hh]
        exact h

theorem parse_of_append_ok {d e : List Nat} {p : Nat} {r : HashResult} {q : Nat}
    (h : parseAt (d ++ e) p = .okRec r q) (hq : q ≤ d.length) :
    parseAt d p = .okRec r q := by
  unfold parseAt at h ⊢
  split at h
  · cases h
  case h_2 hl hb1 =>
    split at h
    · cases h
    case h_2 head hb2 =>
      split at h
      case isTrue hh =>
        split at h
        · cases h
        case h_2 pb hb3 =>
          cases h
          have hb1' := readBytes_of_append hb1 (by omega)
          have hb2' := readBytes_of_append hb2 (by omega)
          have hb3' := readBytes_of_append hb3 (by omega)
          rw [hb1']
          dsimp only
          rw [hb2']
          dsimp only
          rw [if_pos hh, hb3']
      case isFalse hh => cases h

theorem pow_256_8 : 256 ^ 8 = 2 ^ 64 := by norm_num

theorem parseAt_encode {d rest : List Nat} {p : Nat} {e : HashResult}
    (hd : d.drop p = encodeResult e ++ rest)
    (hh : e.hash < 2 ^ 64) (hl : e.path.length < 2 ^ 64) :
    parseAt d p = .okRec e (p + (encodeResult e).length) := by
  have hlen : d.length - p = (17 + e.path.length) + rest.length := by
    have := congrArg List.length hd
    simpa [List.length_drop, encodeResult_length] using this
  have hple : p + 17 + e.path.length + rest.length = d.length := by omega
  have hAB : (encodeResult e ++ rest) =
      HEAD_SIZE :: ((toLE U64_BYTES e.hash ++ toLE USIZE_BYTES e.path.length) ++ (e.path ++ rest)) := by
    simp [encodeResult]
  have hb1 : readBytes d p 1 = some [HEAD_SIZE] := by
    unfold readBytes
    rw [if_pos (by omega), hd, hAB]
    rfl
  have hABlen : (toLE U64_BYTES e.hash ++ toLE USIZE_BYTES e.path.length).length = HEAD_SIZE := by
    simp [length_toLE, HEAD_SIZE]
  have hdrop1 : d.drop (p + 1) =
      (toLE U64_BYTES e.hash ++ toLE USIZE_BYTES e.path.length) ++ (e.path ++ rest) := by
    have : d.drop (p + 1) = (d.drop p).drop 1 := by
      rw [List.drop_drop]
    rw [this, hd, hAB]
    rfl
  have hb2 : readBytes d (p + 1) HEAD_SIZE =
      some (toLE U64_BYTES e.hash ++ toLE USIZE_BYTES e.path.length) := by
    unfold readBytes
    rw [if_pos (by simp only [HEAD_SIZE, U64_BYTES, USIZE_BYTES]; omega), hdrop1,
      List.take_left' hABlen]
  have hdropH : d.drop (p + 1 + HEAD_SIZE) = e.path ++ rest := by
    have h1 : d.drop (p + 1 + HEAD_SIZE) = (d.drop (p + 1)).drop HEAD_SIZE := by
      rw [List.drop_drop]
    rw [h1, hdrop1, List.drop_left' hABlen]
  have hfromB : fromLE ((toLE U64_BYTES e.hash ++ toLE USIZE_BYTES e.path.length).drop U64_BYTES)
      = e.path.length := by
    rw [List.drop_left' (length_toLE _ _), USIZE_BYTES, fromLE_toLE (by rw [pow_256_8]; exact hl)]
  have hfromA : fromLE ((toLE U64_BYTES e.hash ++ toLE USIZE_BYTES e.path.length).take U64_BYTES)
      = e.hash := by
    rw [List.take_left' (length_toLE _ _), U64_BYTES, fromLE_toLE (by rw [pow_256_8]; exact hh)]
  have hb3 : readBytes d (p + 1 + HEAD_SIZE) e.path.length = some e.path := by
    unfold readBytes
    rw [if_pos (by simp only [HEAD_SIZE, U64_BYTES, USIZE_BYTES]; omega), hdropH,
      List.take_left' rfl]
  unfold parseAt
  rw [hb1]
  dsimp only [List.headI]
  rw [hb2]
  dsimp only
  rw [if_pos hABlen, hfromB, hb3]
  dsimp only
  rw [hfromA]
  have hq : p + 1 + HEAD_SIZE + e.path.length = p + (encodeResult e).length := by
    rw [encodeResult_length]
    simp only [HEAD_SIZE, U64_BYTES, USIZE_BYTES]
    omega
  rw [hq]


theorem parseAt_trunc {d : List Nat} {p m : Nat} {e : HashResult}
    (hd : d.drop p = (encodeResult e).take m)
    (hm1 : 1 ≤ m) (hm2 : m < (encodeResult e).length)
    (hl : e.path.length < 2 ^ 64) :
    ∃ q, parseAt d p = .ioErr q := by
  have hdl : d.length - p = m := by
    have := congrArg List.length hd
    simp only [List.length_drop, List.length_take] at this
    omega
  have hplen : m < 17 + e.path.length := by
    rw [encodeResult_length] at hm2
    exact hm2
  have henc : encodeResult e =
      HEAD_SIZE :: ((toLE U64_BYTES e.hash ++ toLE USIZE_BYTES e.path.length) ++ e.path) := by
    simp [encodeResult]
  have hABlen : (toLE U64_BYTES e.hash ++ toLE USIZE_BYTES e.path.length).length = HEAD_SIZE := by
    simp [length_toLE, HEAD_SIZE]
  have hb1 : readBytes d p 1 = some [HEAD_SIZE] := by
    unfold readBytes
    rw [if_pos (by omega), hd, List.take_take]
    have h1 : min 1 m = 1 := by omega
    rw [h1, henc]
    rfl
  by_cases hc : 1 + HEAD_SIZE ≤ m
  · -- the header is present in the truncated tail, the path bytes are not
    have hdrop1 : d.drop (p + 1) =
        ((toLE U64_BYTES e.hash ++ toLE USIZE_BYTES e.path.length) ++ e.path).take (m - 1) := by
      have h1 : d.drop (p + 1) = (d.drop p).drop 1 := by rw [List.drop_drop]
      rw [h1, hd, List.drop_take, henc]
      rfl
    have hb2 : readBytes d (p + 1) HEAD_SIZE =
        some (toLE U64_BYTES e.hash ++ toLE USIZE_BYTES e.path.length) := by
      unfold readBytes
      rw [if_pos (by simp only [HEAD_SIZE, U64_BYTES, USIZE_BYTES] at hc ⊢; omega), hdrop1,
        List.take_take]
      have h1 : min HEAD_SIZE (m - 1) = HEAD_SIZE := by
        simp only [HEAD_SIZE, U64_BYTES, USIZE_BYTES] at hc ⊢
        omega
      have h2 : (toLE U64_BYTES e.hash ++ toLE USIZE_BYTES e.path.length).take HEAD_SIZE
          = toLE U64_BYTES e.hash ++ toLE USIZE_BYTES e.path.length := by
        rw [← hABlen]
        exact List.take_length _
      rw [h1, List.take_append_eq_append_take, h2, hABlen]
      simp
    have hfromB : fromLE ((toLE U64_BYTES e.hash ++ toLE USIZE_BYTES e.path.length).drop U64_BYTES)
        = e.path.length := by
      rw [List.drop_left' (length_toLE _ _), USIZE_BYTES, fromLE_toLE (by rw [pow_256_8]; exact hl)]
    have hb3 : readBytes d (p + 1 + HEAD_SIZE) e.path.length = none := by
      unfold readBytes
      rw [if_neg]
      simp only [HEAD_SIZE, U64_BYTES, USIZE_BYTES]
      omega
    refine ⟨p + 1 + HEAD_SIZE, ?_⟩
    unfold parseAt
    rw [hb1]
    dsimp only [List.headI]
    rw [hb2]
    dsimp only
    rw [if_pos hABlen, hfromB, hb3]
  · -- even the fixed-size header is cut short
    have hb2 : readBytes d (p + 1) HEAD_SIZE = none := by
      unfold readBytes
      rw [if_neg]
      simp only [HEAD_SIZE, U64_BYTES, USIZE_BYTES] at hc ⊢
      omega
    refine ⟨p + 1, ?_⟩
    unfold parseAt
    rw [hb1]
    dsimp only [List.headI]
    rw [hb2]

theorem is_stop_open : ReadStatus.Open.is_stop = false := rfl

theorem is_stop_of_stopped : ReadStatus.Stopped.is_stop = true := rfl

theorem is_stop_of_error : ReadStatus.Error.is_stop = true := rfl

theorem readLog_open_none (d : List Nat) (L p : Nat) :
    readLog ⟨.Read ⟨.Open, L, none⟩, ⟨d, p⟩⟩ =
      match parseAt d p with
      | .ioErr q => (.error .IOErr, ⟨.Read ⟨.Error, L, none⟩, ⟨d, q⟩⟩)
      | .parseErr q => (.error .ParseErr, ⟨.Read ⟨.Error, L, none⟩, ⟨d, q⟩⟩)
      | .okRec r q =>
        if L ≤ q then
          if L < q then (.error .Empty, ⟨.Read ⟨.Stopped, L, none⟩, ⟨d, q⟩⟩)
          else (.ok r, ⟨.Read ⟨.Stopped, L, none⟩, ⟨d, q⟩⟩)
        else (.ok r, ⟨.Read ⟨.Open, L, none⟩, ⟨d, q⟩⟩) := rfl

theorem readLog_stopped {inner : ReadXxhDiffDataInner} {f : FileState}
    (h : inner.status.is_stop = true) :
    readLog ⟨.Read inner, f⟩ = (.error .Empty, ⟨.Read inner, f⟩) := by
  unfold readLog
  dsimp only
  rw [h]
  rfl

theorem encodeList_cons (e : HashResult) (tl : List HashResult) :
    encodeList (e :: tl) = encodeResult e ++ encodeList tl := by
  simp [encodeList]

theorem encodeList_nil : encodeList [] = [] := rfl

theorem encodeList_cons_length_pos (e : HashResult) (tl : List HashResult) :
    0 < (encodeList (e :: tl)).length := by
  rw [encodeList_cons]
  have := encodeResult_length e
  simp [List.length_append]
  omega

theorem readMany_encList (es : List HashResult) :
    ∀ (d rest : List Nat) (p : Nat),
    (∀ x ∈ es, x.hash < 2 ^ 64 ∧ x.path.length < 2 ^ 64) →
    d.drop p = encodeList es ++ rest →
    readMany es.length ⟨.Read ⟨.Open, d.length, none⟩, ⟨d, p⟩⟩
      = (es.map Except.ok,
         ⟨.Read ⟨if es.isEmpty || !rest.isEmpty then .Open else .Stopped, d.length, none⟩,
          ⟨d, p + (encodeList es).length⟩⟩) := by
  induction es with
  | nil =>
    intro d rest p _ _
    simp [readMany, encodeList_nil]
  | cons e tl ih =>
    intro d rest p hb hd
    have hbe := hb e (by simp)
    rw [encodeList_cons, List.append_assoc] at hd
    have hparse := parseAt_encode hd hbe.1 hbe.2
    have hlen : d.length - p = (encodeResult e).length + ((encodeList tl).length + rest.length) := by
      have := congrArg List.length hd
      simpa [List.length_drop, List.length_append] using this
    have hres := encodeResult_length e
    by_cases hstop : (encodeList tl).length + rest.length = 0
    · -- last record: it ends exactly at the end of the file
      have htl : tl = [] := by
        cases tl with
        | nil => rfl
        | cons x xs => exact absurd hstop (by have := encodeList_cons_length_pos x xs; omega)
      have hrest : rest = [] := by
        apply List.length_eq_zero.mp
        omega
      subst htl
      subst hrest
      have hread : readLog ⟨.Read ⟨.Open, d.length, none⟩, ⟨d, p⟩⟩
          = (.ok e, ⟨.Read ⟨.Stopped, d.length, none⟩, ⟨d, p + (encodeResult e).length⟩⟩) := by
        rw [readLog_open_none, hparse]
        dsimp only
        rw [if_pos (by omega), if_neg (by omega)]
      simp only [List.length_cons, List.length_nil, readMany, hread]
      simp [encodeList_cons, encodeList_nil]
    · -- the file continues after this record
      have hq : p + (encodeResult e).length < d.length := by omega
      have hread : readLog ⟨.Read ⟨.Open, d.length, none⟩, ⟨d, p⟩⟩
          = (.ok e, ⟨.Read ⟨.Open, d.length, none⟩, ⟨d, p + (encodeResult e).length⟩⟩) := by
        rw [readLog_open_none, hparse]
        dsimp only
        rw [if_neg (by omega)]
      have hd' : d.drop (p + (encodeResult e).length) = encodeList tl ++ rest := by
        have h1 : d.drop (p + (encodeResult e).length) = (d.drop p).drop (encodeResult e).length := by
          rw [List.drop_drop]
        rw [h1, hd, List.drop_left' rfl]
      have hb' : ∀ x ∈ tl, x.hash < 2 ^ 64 ∧ x.path.length < 2 ^ 64 := by
        intro x hx
        exact hb x (by simp [hx])
      simp only [List.length_cons, readMany, hread]
      rw [ih d rest (p + (encodeResult e).length) hb' hd']
      have hif : (if tl.isEmpty || !rest.isEmpty then ReadStatus.Open else ReadStatus.Stopped)
          = (if (e :: tl).isEmpty || !rest.isEmpty then ReadStatus.Open else ReadStatus.Stopped) := by
        cases tl with
        | nil =>
          cases rest with
          | nil => simp [encodeList_nil] at hstop
          | cons y ys => simp
        | cons x xs =>
          cases rest with
          | nil => simp
          | cons y ys => simp
      rw [hif]
      simp [encodeList_cons]
      omega

theorem readMany_add (m n : Nat) (s : LogState) :
    readMany (m + n) s
      = ((readMany m s).1 ++ (readMany n (readMany m s).2).1,
         (readMany n (readMany m s).2).2) := by
  induction m generalizing s with
  | zero => simp [readMany]
  | succ m ih =>
    have h1 : m + 1 + n = (m + n) + 1 := by omega
    rw [h1]
    simp only [readMany]
    rw [ih]
    simp

/-- C1: writing entries `E1..En` with `XxhDiffData::write` to a fresh (empty)
log and then reading the resulting file through a `Read`-mode handle yields
exactly `E1..En` in order, after which `read()` returns `Empty`.  The
hypotheses say each entry is a genuine `(path, hash64)` pair of the source:
the hash fits in a `u64` and the path length fits in a `usize`. -/
theorem c1_log_roundtrip (es : List HashResult)
    (hb : ∀ x ∈ es, x.hash < 2 ^ 64 ∧ x.path.length < 2 ^ 64) :
    (readMany (es.length + 1) (openRead (writeLog es freshWrite).2.file.data)).1
      = es.map Except.ok ++ [Except.error DataErr.Empty] := by
  cases es with
  | nil => rfl
  | cons e tl =>
    have hw : (writeLog (e :: tl) freshWrite).2.file.data = encodeList (e :: tl) := by
      simp [writeLog, freshWrite]
    rw [hw]
    have hlen0 : (encodeList (e :: tl)).length ≠ 0 := by
      have := encodeList_cons_length_pos e tl
      omega
    have hopen : openRead (encodeList (e :: tl))
        = ⟨.Read ⟨.Open, (encodeList (e :: tl)).length, none⟩, ⟨encodeList (e :: tl), 0⟩⟩ := by
      unfold openRead
      rw [if_neg hlen0]
    rw [hopen, readMany_add,
      readMany_encList (e :: tl) (encodeList (e :: tl)) [] 0 hb (by simp)]
    simp [readMany, readLog_stopped, ReadStatus.is_stop]

/-- C2: a log holding complete records `es` followed by a non-empty strict
prefix of a further record (the trailing record truncated by `k` bytes,
`1 ≤ k < record size`) lets repeated `read()` calls return exactly the
complete records, then fail (with an IO error at EOF), leaving the reader's
status permanently `Error`: one further `read()` returns `Empty` and leaves
the state untouched. -/
theorem c2_truncated_tail (es : List HashResult) (e : HashResult) (k : Nat)
    (d t : List Nat)
    (hb : ∀ x ∈ es, x.hash < 2 ^ 64 ∧ x.path.length < 2 ^ 64)
    (hl : e.path.length < 2 ^ 64)
    (hk1 : 1 ≤ k) (hk2 : k < (encodeResult e).length)
    (ht : t = (encodeResult e).take ((encodeResult e).length - k))
    (hd : d = encodeList es ++ t) :
    (readMany (es.length + 1) (openRead d)).1
      = es.map Except.ok ++ [Except.error DataErr.IOErr]
    ∧ (∃ inner, ((readMany (es.length + 1) (openRead d)).2).handle = .Read inner
        ∧ inner.status = .Error)
    ∧ readLog (readMany (es.length + 1) (openRead d)).2
      = (.error .Empty, (readMany (es.length + 1) (openRead d)).2) := by
  have htlen : t.length = (encodeResult e).length - k := by
    rw [ht]
    simp [List.length_take]
  have htne : t.isEmpty = false := by
    cases h : t with
    | nil => rw [h] at htlen; simp at htlen; omega
    | cons a l => rfl
  have hlen0 : d.length ≠ 0 := by
    have h1 : 1 ≤ t.length := by omega
    rw [hd]
    simp only [List.length_append]
    omega
  have hopen : openRead d = ⟨.Read ⟨.Open, d.length, none⟩, ⟨d, 0⟩⟩ := by
    unfold openRead
    rw [if_neg hlen0]
  have hdrop0 : d.drop 0 = encodeList es ++ t := by simpa using hd
  have henc := readMany_encList es d t 0 hb hdrop0
  rw [htne] at henc
  simp only [Bool.not_false, Bool.or_true, if_true] at henc
  have hdropP : d.drop (0 + (encodeList es).length) = t := by
    rw [Nat.zero_add, hd, List.drop_left' rfl]
  have htrunc := parseAt_trunc (m := (encodeResult e).length - k) (e := e)
    (by rw [hdropP, ht]) (by omega) (by omega) hl
  obtain ⟨q, hq⟩ := htrunc
  have hread1 : readLog ⟨.Read ⟨.Open, d.length, none⟩, ⟨d, 0 + (encodeList es).length⟩⟩
      = (.error .IOErr, ⟨.Read ⟨.Error, d.length, none⟩, ⟨d, q⟩⟩) := by
    rw [readLog_open_none, hq]
  rw [hopen, readMany_add, henc]
  simp only [readMany, hread1]
  refine ⟨by simp, ⟨⟨.Error, d.length, none⟩, rfl, rfl⟩, ?_⟩
  exact readLog_stopped rfl

theorem readLog_read (inner : ReadXxhDiffDataInner) (f : FileState) :
    readLog ⟨.Read inner, f⟩ =
      if inner.status.is_stop then (.error .Empty, ⟨.Read inner, f⟩)
      else
        match parseAt f.data (inner.cursor_pos.getD f.pos) with
        | .ioErr q => (.error .IOErr, ⟨.Read ⟨.Error, inner.initial_len, none⟩, ⟨f.data, q⟩⟩)
        | .parseErr q => (.error .ParseErr, ⟨.Read ⟨.Error, inner.initial_len, none⟩, ⟨f.data, q⟩⟩)
        | .okRec r q =>
          if inner.initial_len ≤ q then
            if inner.initial_len < q then
              (.error .Empty, ⟨.Read ⟨.Stopped, inner.initial_len, none⟩, ⟨f.data, q⟩⟩)
            else (.ok r, ⟨.Read ⟨.Stopped, inner.initial_len, none⟩, ⟨f.data, q⟩⟩)
          else (.ok r, ⟨.Read ⟨.Open, inner.initial_len, none⟩, ⟨f.data, q⟩⟩) := rfl

/-- C5: `read()` never returns a record lying past the length captured at
open time: a stopped reader returns `Empty` without touching the state;
every successfully returned record ends at a position `≤ initial_len`; and
whenever a read transitions the status from `Open` to `Stopped`, the final
position is `≥ initial_len`, strictly past it the result was `Empty`, and
exactly at it the record was returned. -/
theorem c5_read_initial_len_bound (s : LogState) (inner : ReadXxhDiffDataInner)
    (hs : s.handle = .Read inner) :
    (inner.status.is_stop = true → readLog s = (.error .Empty, s))
    ∧ (∀ r s', readLog s = (.ok r, s') → s'.file.pos ≤ inner.initial_len)
    ∧ (∀ res s' inner', readLog s = (res, s') → s'.handle = .Read inner' →
        inner'.status = .Stopped → inner.status = .Open →
        inner.initial_len ≤ s'.file.pos
        ∧ (inner.initial_len < s'.file.pos → res = .error .Empty)
        ∧ (s'.file.pos = inner.initial_len → ∃ hr, res = .ok hr)) := by
  obtain ⟨h, f⟩ := s
  cases h with
  | Write => cases hs
  | Read inner0 =>
    cases hs
    rw [readLog_read]
    by_cases hstop : inner.status.is_stop = true
    · rw [if_pos hstop]
      refine ⟨fun _ => rfl, ?_, ?_⟩
      · intro r s' hcon
        simp at hcon
      · intro res s' inner' heq hh' hstopped hopen
        rw [hopen] at hstop
        simp [ReadStatus.is_stop] at hstop
    · rw [if_neg hstop]
      cases hp : parseAt f.data (inner.cursor_pos.getD f.pos) with
      | ioErr q =>
        dsimp only
        refine ⟨fun hc => absurd hc hstop, ?_, ?_⟩
        · intro r s' hcon
          simp at hcon
        · intro res s' inner' heq hh' hstopped hopen
          cases heq
          dsimp only at hh'
          cases hh'
          simp at hstopped
      | parseErr q =>
        dsimp only
        refine ⟨fun hc => absurd hc hstop, ?_, ?_⟩
        · intro r s' hcon
          simp at hcon
        · intro res s' inner' heq hh' hstopped hopen
          cases heq
          dsimp only at hh'
          cases hh'
          simp at hstopped
      | okRec r q =>
        dsimp only
        by_cases hge : inner.initial_len ≤ q
        · rw [if_pos hge]
          by_cases hgt : inner.initial_len < q
          · rw [if_pos hgt]
            refine ⟨fun hc => absurd hc hstop, ?_, ?_⟩
            · intro r' s' hcon
              simp at hcon
            · intro res s' inner' heq hh' hstopped hopen
              cases heq
              dsimp only
              refine ⟨by omega, fun _ => rfl, fun hq0 => ?_⟩
              exfalso
              omega
          · rw [if_neg hgt]
            refine ⟨fun hc => absurd hc hstop, ?_, ?_⟩
            · intro r' s' hcon
              cases hcon
              dsimp only
              omega
            · intro res s' inner' heq hh' hstopped hopen
              cases heq
              dsimp only
              refine ⟨by omega, fun hlt => ?_, fun _ => ⟨r, rfl⟩⟩
              exfalso
              omega
        · rw [if_neg hge]
          refine ⟨fun hc => absurd hc hstop, ?_, ?_⟩
          · intro r' s' hcon
            cases hcon
            dsimp only
            omega
          · intro res s' inner' heq hh' hstopped hopen
            cases heq
            dsimp only at hh'
            cases hh'
            simp at hstopped

/-- C8: on every `read()` of a record whose first byte `head_len` differs
from `sizeof(u64) + sizeof(usize)` (= `HEAD_SIZE`), `read()` returns a
`Parse` error and the reader's status transitions to `Error`, which is
permanent: the next `read()` returns `Empty` and leaves the state
untouched.  (The hypotheses say the record's `head_len` header bytes are
present in the file; a record cut off inside the header is instead the C2
IO-error case.) -/
theorem c8_head_len_mismatch (d rest : List Nat) (p L b : Nat)
    (hb : b ≠ HEAD_SIZE) (hdrop : d.drop p = b :: rest) (hblen : b ≤ rest.length) :
    readLog ⟨.Read ⟨.Open, L, none⟩, ⟨d, p⟩⟩
      = (.error .ParseErr, ⟨.Read ⟨.Error, L, none⟩, ⟨d, p + 1 + b⟩⟩)
    ∧ readLog (⟨.Read ⟨.Error, L, none⟩, ⟨d, p + 1 + b⟩⟩ : LogState)
      = (.error .Empty, ⟨.Read ⟨.Error, L, none⟩, ⟨d, p + 1 + b⟩⟩) := by
  have hdl : d.length - p = rest.length + 1 := by
    have := congrArg List.length hdrop
    simpa [List.length_drop] using this
  have hb1 : readBytes d p 1 = some [b] := by
    unfold readBytes
    rw [if_pos (by omega), hdrop]
    rfl
  have hcond : p + 1 + b ≤ d.length := by omega
  have hb2 : readBytes d (p + 1) b = some (((d.drop (p + 1)).take b)) := by
    unfold readBytes
    rw [if_pos hcond]
  have hhead : ((d.drop (p + 1)).take b).length = b := by
    simp [List.length_take, List.length_drop]
    omega
  have hparse : parseAt d p = .parseErr (p + 1 + b) := by
    unfold parseAt
    rw [hb1]
    dsimp only [List.headI]
    rw [hb2]
    dsimp only
    rw [if_neg (by rw [hhead]; exact hb)]
  constructor
  · rw [readLog_open_none, hparse]
  · exact readLog_stopped rfl

/-- C10: once a `read()` call has returned an `IO` or `Parse` error, the
reader's status is `Error` and every subsequent `read()` on that handle
returns `Err(Empty)` with the state (including the file) untouched: the
original error is never returned again and no further bytes are read. -/
theorem c10_error_latch (s s' : LogState) (e : DataErr)
    (h : readLog s = (.error e, s')) (he : e ≠ .Empty) :
    (∃ inner, s'.handle = .Read inner ∧ inner.status = .Error)
    ∧ readLog s' = (.error .Empty, s') := by
  obtain ⟨hh, f⟩ := s
  cases hh with
  | Write =>
    unfold readLog at h
    dsimp only at h
    cases h
    exact absurd rfl he
  | Read inner =>
    rw [readLog_read] at h
    by_cases hstop : inner.status.is_stop = true
    · rw [if_pos hstop] at h
      cases h
      exact absurd rfl he
    · rw [if_neg hstop] at h
      cases hp : parseAt f.data (inner.cursor_pos.getD f.pos) with
      | ioErr q =>
        rw [hp] at h
        dsimp only at h
        cases h
        exact ⟨⟨⟨.Error, inner.initial_len, none⟩, rfl, rfl⟩, readLog_stopped rfl⟩
      | parseErr q =>
        rw [hp] at h
        dsimp only at h
        cases h
        exact ⟨⟨⟨.Error, inner.initial_len, none⟩, rfl, rfl⟩, readLog_stopped rfl⟩
      | okRec r q =>
        rw [hp] at h
        dsimp only at h
        by_cases hge : inner.initial_len ≤ q
        · rw [if_pos hge] at h
          by_cases hgt : inner.initial_len < q
          · rw [if_pos hgt] at h
            cases h
            exact absurd rfl he
          · rw [if_neg hgt] at h
            simp at h
        · rw [if_neg hge] at h
          simp at h

theorem sim_write {d : List Nat} {s₁ s₂ : LogState} (es : List HashResult)
    (h : Sim d s₁ s₂) : Sim d (writeLog es s₁).2 s₂ := by
  obtain ⟨inner₁, inner₂, extra, h1, h2, hL1, hL2, hd1, hd2, hst⟩ := h
  by_cases hes : es.isEmpty
  · unfold writeLog
    rw [if_pos hes]
    exact ⟨inner₁, inner₂, extra, h1, h2, hL1, hL2, hd1, hd2, hst⟩
  · obtain ⟨hh, f⟩ := s₁
    dsimp only at h1 hd1 hst
    subst h1
    unfold writeLog
    rw [if_neg hes]
    dsimp only
    cases hc : inner₁.cursor_pos with
    | none =>
      dsimp only
      refine ⟨⟨inner₁.status, inner₁.initial_len, some f.pos⟩, inner₂, extra ++ encodeList es,
        rfl, h2, hL1, hL2, ?_, hd2, ?_⟩
      · dsimp only
        rw [hd1, List.append_assoc]
      · rw [hc] at hst
        dsimp only
        cases hst with
        | inl hboth => exact Or.inl hboth
        | inr heq => exact Or.inr ⟨heq.1, by simpa using heq.2⟩
    | some c =>
      dsimp only
      refine ⟨⟨inner₁.status, inner₁.initial_len, some c⟩, inner₂, extra ++ encodeList es,
        rfl, h2, hL1, hL2, ?_, hd2, ?_⟩
      · dsimp only
        rw [hd1, List.append_assoc]
      · rw [hc] at hst
        dsimp only
        cases hst with
        | inl hboth => exact Or.inl hboth
        | inr heq => exact Or.inr ⟨heq.1, by simpa using heq.2⟩

theorem sim_read {d : List Nat} {s₁ s₂ : LogState} (h : Sim d s₁ s₂) :
    Sim d (readLog s₁).2 (readLog s₂).2
    ∧ ∀ r : HashResult, (readLog s₁).1 = .ok r ↔ (readLog s₂).1 = .ok r := by
  obtain ⟨inner₁, inner₂, extra, h1, h2, hL1, hL2, hd1, hd2, hst⟩ := h
  obtain ⟨hh1, f1⟩ := s₁
  obtain ⟨hh2, f2⟩ := s₂
  obtain ⟨d1, p1⟩ := f1
  obtain ⟨dd, p2⟩ := f2
  dsimp only at h1 h2 hd1 hd2 hst
  subst h1
  subst h2
  subst hd1
  subst hd2
  have hstop_both : inner₁.status.is_stop = true ∧ inner₂.status.is_stop = true →
      Sim dd (readLog ⟨.Read inner₁, ⟨dd ++ extra, p1⟩⟩).2 (readLog ⟨.Read inner₂, ⟨dd, p2⟩⟩).2
      ∧ ∀ r : HashResult, (readLog ⟨.Read inner₁, ⟨dd ++ extra, p1⟩⟩).1 = .ok r
          ↔ (readLog ⟨.Read inner₂, ⟨dd, p2⟩⟩).1 = .ok r := by
    intro hboth
    rw [readLog_stopped hboth.1, readLog_stopped hboth.2]
    refine ⟨⟨inner₁, inner₂, extra, rfl, rfl, hL1, hL2, rfl, rfl, Or.inl hboth⟩, ?_⟩
    intro r
    constructor <;> intro hcon <;> simp at hcon
  cases hst with
  | inl hboth => exact hstop_both hboth
  | inr hpair =>
    obtain ⟨hsteq, heff⟩ := hpair
    by_cases hstop : inner₁.status.is_stop = true
    · exact hstop_both ⟨hstop, by rw [← hsteq]; exact hstop⟩
    · have hstop2 : ¬ inner₂.status.is_stop = true := by rw [← hsteq]; exact hstop
      rw [readLog_read, readLog_read, if_neg hstop, if_neg hstop2]
      dsimp only at heff ⊢
      rw [heff, hL1, hL2]
      cases hp2 : parseAt dd (inner₂.cursor_pos.getD p2) with
      | okRec r q =>
        have hq := parse_ok_le hp2
        rw [parse_mono hp2]
        dsimp only
        by_cases hge : dd.length ≤ q
        · rw [if_pos hge, if_pos hge, if_neg (by omega), if_neg (by omega)]
          refine ⟨⟨⟨.Stopped, dd.length, none⟩, ⟨.Stopped, dd.length, none⟩, extra,
            rfl, rfl, rfl, rfl, rfl, rfl, Or.inr ⟨rfl, rfl⟩⟩, fun r' => Iff.rfl⟩
        · rw [if_neg hge, if_neg hge]
          refine ⟨⟨⟨.Open, dd.length, none⟩, ⟨.Open, dd.length, none⟩, extra,
            rfl, rfl, rfl, rfl, rfl, rfl, Or.inr ⟨rfl, rfl⟩⟩, fun r' => Iff.rfl⟩
      | parseErr q =>
        rw [parse_perr_mono hp2]
        dsimp only
        refine ⟨⟨⟨.Error, dd.length, none⟩, ⟨.Error, dd.length, none⟩, extra,
          rfl, rfl, rfl, rfl, rfl, rfl, Or.inl ⟨rfl, rfl⟩⟩, ?_⟩
        intro r
        constructor <;> intro hcon <;> simp at hcon
      | ioErr q =>
        cases hp1 : parseAt (dd ++ extra) (inner₂.cursor_pos.getD p2) with
        | ioErr q1 =>
          dsimp only
          refine ⟨⟨⟨.Error, dd.length, none⟩, ⟨.Error, dd.length, none⟩, extra,
            rfl, rfl, rfl, rfl, rfl, rfl, Or.inl ⟨rfl, rfl⟩⟩, ?_⟩
          intro r
          constructor <;> intro hcon <;> simp at hcon
        | parseErr q1 =>
          dsimp only
          refine ⟨⟨⟨.Error, dd.length, none⟩, ⟨.Error, dd.length, none⟩, extra,
            rfl, rfl, rfl, rfl, rfl, rfl, Or.inl ⟨rfl, rfl⟩⟩, ?_⟩
          intro r
          constructor <;> intro hcon <;> simp at hcon
        | okRec r1 q1 =>
          have hq1 : dd.length < q1 := by
            by_contra hle
            have hpref := parse_of_append_ok hp1 (by omega)
            rw [hpref] at hp2
            cases hp2
          dsimp only
          rw [if_pos (by omega), if_pos (by omega)]
          refine ⟨⟨⟨.Stopped, dd.length, none⟩, ⟨.Error, dd.length, none⟩, extra,
            rfl, rfl, rfl, rfl, rfl, rfl, Or.inl ⟨rfl, rfl⟩⟩, ?_⟩
          intro r
          constructor <;> intro hcon <;> simp at hcon

theorem runOps_sim {d : List Nat} (ops : List LogOp) :
    ∀ s₁ s₂, Sim d s₁ s₂ →
    (runOps ops s₁).1 = (runOps (ops.filter LogOp.isRead) s₂).1 := by
  induction ops with
  | nil =>
    intro s₁ s₂ _
    rfl
  | cons op ops ih =>
    intro s₁ s₂ h
    cases op with
    | wr es =>
      have hfilter : (LogOp.wr es :: ops).filter LogOp.isRead = ops.filter LogOp.isRead := by
        simp [List.filter, LogOp.isRead]
      rw [hfilter]
      show (runOps ops (writeLog es s₁).2).1 = _
      exact ih _ _ (sim_write es h)
    | rd =>
      have hfilter : (LogOp.rd :: ops).filter LogOp.isRead
          = LogOp.rd :: ops.filter LogOp.isRead := by
        simp [List.filter, LogOp.isRead]
      rw [hfilter]
      obtain ⟨hsim', hiff⟩ := sim_read h
      simp only [runOps]
      cases hr1 : (readLog s₁).1 with
      | ok hres =>
        have hr2 : (readLog s₂).1 = .ok hres := (hiff hres).mp hr1
        rw [hr2]
        dsimp only
        rw [ih _ _ hsim']
      | error err =>
        cases hr2 : (readLog s₂).1 with
        | ok hres =>
          have := (hiff hres).mpr hr2
          rw [hr1] at this
          cases this
        | error err2 =>
          dsimp only
          exact ih _ _ hsim'

theorem sim_refl_open (d : List Nat) : Sim d (openRead d) (openRead d) := by
  refine ⟨⟨if d.length = 0 then .Stopped else .Open, d.length, none⟩,
    ⟨if d.length = 0 then .Stopped else .Open, d.length, none⟩, [], rfl, rfl, rfl, rfl, ?_, rfl,
    Or.inr ⟨rfl, rfl⟩⟩
  simp [openRead]

/-- C6: appends interleaved between reads do not change the sequence of
records successive `read()` calls return (running any operation sequence
against a freshly opened log produces the same records as the write-free
subsequence), because `write(entries)` on a `Read`-mode handle first saves
the current read cursor (unless one is already saved, in which case the
saved cursor is kept), and the next `read()` seeks back to the saved
cursor before reading. -/
theorem c6_write_saves_cursor (d : List Nat) (ops : List LogOp) :
    (runOps ops (openRead d)).1 = (runOps (ops.filter LogOp.isRead) (openRead d)).1
    ∧ (∀ s inner es, s.handle = .Read inner → inner.cursor_pos = none → es ≠ [] →
        ∃ inner', (writeLog es s).2.handle = .Read inner'
          ∧ inner'.cursor_pos = some s.file.pos)
    ∧ (∀ s inner es c, s.handle = .Read inner → inner.cursor_pos = some c →
        ∃ inner', (writeLog es s).2.handle = .Read inner'
          ∧ inner'.cursor_pos = some c)
    ∧ (∀ s inner c, s.handle = .Read inner → inner.cursor_pos = some c →
        inner.status.is_stop = false →
        readLog s = readLog ⟨.Read ⟨inner.status, inner.initial_len, none⟩,
          ⟨s.file.data, c⟩⟩) := by
  refine ⟨runOps_sim ops _ _ (sim_refl_open d), ?_, ?_, ?_⟩
  · intro s inner es hs hc hes
    obtain ⟨hh, f⟩ := s
    dsimp only at hs ⊢
    subst hs
    unfold writeLog
    rw [if_neg (by simpa using hes)]
    dsimp only
    rw [hc]
    exact ⟨_, rfl, rfl⟩
  · intro s inner es c hs hc
    obtain ⟨hh, f⟩ := s
    dsimp only at hs ⊢
    subst hs
    by_cases hes : es.isEmpty
    · unfold writeLog
      rw [if_pos hes]
      exact ⟨inner, rfl, hc⟩
    · unfold writeLog
      rw [if_neg hes]
      dsimp only
      rw [hc]
      exact ⟨_, rfl, rfl⟩
  · intro s inner c hs hc hstop
    obtain ⟨hh, f⟩ := s
    dsimp only at hs ⊢
    subst hs
    rw [readLog_read, readLog_read]
    dsimp only
    rw [hc, hstop]
    simp only [Bool.false_eq_true, if_false]
    rfl

theorem bytesToWide_wideToBytes (w : List Nat) (hw : ∀ u ∈ w, u < 2 ^ 16) :
    bytesToWide (wideToBytes w) = some w := by
  induction w with
  | nil => rfl
  | cons u us ih =>
    have hu : u < 65536 := by
      have := hw u (by simp)
      omega
    have ih' := ih (fun x hx => hw x (by simp [hx]))
    show bytesToWide (u % 256 :: (u / 256 % 256 :: wideToBytes us)) = _
    unfold bytesToWide
    rw [ih']
    have h1 : u / 256 % 256 = u / 256 := Nat.mod_eq_of_lt (by omega)
    simp only [Option.map_some', h1]
    rw [Nat.mod_add_div]

/-- C7: the raw path byte codec round-trips losslessly: on unix
`try_as_bytes`/`try_from_bytes` are the identity on the native byte
representation, and on windows decoding the little-endian byte view of any
sequence of 16-bit code units returns exactly that sequence. -/
theorem c7_codec_roundtrip :
    (∀ p : List Nat, try_as_bytes_unix p = .ok p ∧ try_from_bytes_unix p = .ok p)
    ∧ (∀ w : List Nat, (∀ u ∈ w, u < 2 ^ 16) →
        try_from_bytes_windows (wideToBytes w) = .ok w) := by
  constructor
  · intro p
    exact ⟨rfl, rfl⟩
  · intro w hw
    unfold try_from_bytes_windows
    rw [bytesToWide_wideToBytes w hw]

theorem writeLog_resetLog_data (rs : List HashResult) :
    (writeLog rs resetLog).2.file.data = encodeList rs := by
  by_cases h : rs.isEmpty
  · have hrs : rs = [] := by simpa using h
    subst hrs
    rfl
  · unfold writeLog resetLog
    rw [if_neg h]
    simp

/-- C3: once `read_done` is observed with the output handle still in `Read`
mode and reader status `Error`, the Coordinator's fallback block truncates
the output log via `reset` and rewrites the union of `PriorHashMap`
(`existing`) and the entries observed this run (`hashes`), and disarms by
clearing `new_results`; the fallback is a no-op whenever `new_results` is
already `None` (so the recovery runs at most once per run) and whenever
`read_done` is not yet set. -/
theorem c3_corruption_fallback_once (existing hashes : List HashResult) (s : CoordState)
    (inner : ReadXxhDiffDataInner)
    (h1 : s.newResults = some hashes) (h2 : s.readDone = true)
    (h3 : s.out.handle = .Read inner) (h4 : inner.status.is_err = true) :
    (fallbackStep existing s).out.file.data = encodeList (existing ++ hashes)
    ∧ (fallbackStep existing s).newResults = none
    ∧ (∀ ex1 s1, s1.newResults = none → fallbackStep ex1 s1 = s1)
    ∧ (∀ ex2 s2, s2.readDone = false → fallbackStep ex2 s2 = s2) := by
  obtain ⟨nr, rd, out⟩ := s
  obtain ⟨oh, of⟩ := out
  subst h1
  subst h2
  subst h3
  have hstep : fallbackStep existing ⟨some hashes, true, ⟨.Read inner, of⟩⟩
      = ⟨none, true, (writeLog (existing ++ hashes) resetLog).2⟩ := by
    simp [fallbackStep, h4]
  rw [hstep]
  refine ⟨writeLog_resetLog_data _, rfl, ?_, ?_⟩
  · intro ex1 s1 hn
    obtain ⟨nr1, rd1, out1⟩ := s1
    dsimp only at hn
    subst hn
    rfl
  · intro ex2 s2 hrd
    obtain ⟨nr2, rd2, out2⟩ := s2
    dsimp only at hrd
    subst hrd
    cases nr2 with
    | none => rfl
    | some hs2 =>
      unfold fallbackStep
      dsimp only
      rw [if_neg (by simp)]

/-- C4: over the trace of the walker's gating checks (the first element is
the initial check, each later element the re-check after one unpark
signal), `maybe_send` forwards the path iff some check observes the path
absent from `PriorHashMap` with `read_done` set, every earlier check having
observed it absent with `read_done` unset (the walker parking in between);
and whenever the deciding check observes the path present in
`PriorHashMap`, the path is dropped, never forwarded. -/
theorem c4_walker_gating (obs : List (Bool × Bool)) :
    (maybe_send obs = some true ↔
      ∃ pre post, obs = pre ++ (false, true) :: post ∧ ∀ x ∈ pre, x = (false, false))
    ∧ (∀ pre b post, obs = pre ++ (true, b) :: post →
        (∀ x ∈ pre, x = (false, false)) → maybe_send obs = some false) := by
  induction obs with
  | nil =>
    constructor
    · constructor
      · intro h
        simp [maybe_send] at h
      · rintro ⟨pre, post, habs, -⟩
        exact absurd habs (by simp)
    · intro pre b post habs
      exact absurd habs (by simp)
  | cons o rest ih =>
    obtain ⟨inMap, done⟩ := o
    cases inMap
    · cases done
      · have hms : maybe_send ((false, false) :: rest) = maybe_send rest := rfl
        constructor
        · rw [hms, ih.1]
          constructor
          · rintro ⟨pre, post, rfl, hpre⟩
            refine ⟨(false, false) :: pre, post, rfl, ?_⟩
            intro x hx
            rcases List.mem_cons.mp hx with hx | hx
            · exact hx
            · exact hpre x hx
          · rintro ⟨pre, post, heq, hpre⟩
            cases pre with
            | nil => simp at heq
            | cons y pre' =>
              rw [List.cons_append] at heq
              injection heq with hy hrest
              refine ⟨pre', post, hrest, ?_⟩
              intro x hx
              exact hpre x (by simp [hx])
        · intro pre b post heq hpre
          rw [hms]
          cases pre with
          | nil => simp at heq
          | cons y pre' =>
            rw [List.cons_append] at heq
            injection heq with hy hrest
            exact (ih.2) pre' b post hrest (fun x hx => hpre x (by simp [hx]))
      · constructor
        · constructor
          · intro _
            exact ⟨[], rest, rfl, by simp⟩
          · intro _
            rfl
        · intro pre b post heq hpre
          cases pre with
          | nil => simp at heq
          | cons y pre' =>
            have hy : y = (false, false) := hpre y (by simp)
            rw [List.cons_append] at heq
            injection heq with h1 _
            rw [hy] at h1
            simp at h1
    · constructor
      · constructor
        · intro h
          simp [maybe_send] at h
        · rintro ⟨pre, post, heq, hpre⟩
          cases pre with
          | nil => simp at heq
          | cons y pre' =>
            have hy : y = (false, false) := hpre y (by simp)
            rw [List.cons_append] at heq
            injection heq with h1 _
            rw [hy] at h1
            simp at h1
      · intro pre b post heq hpre
        rfl

theorem poolStep_inv {maxOpen : Int} {s t : PoolState} (hinv : PoolInv maxOpen s)
    (hstep : PoolStep s t) : PoolInv maxOpen t := by
  obtain ⟨hpos, hsum⟩ := hinv
  cases hstep with
  | spawn c ws =>
    refine ⟨hpos, ?_⟩
    dsimp only [numBusy] at hsum ⊢
    rw [Multiset.count_cons_of_ne (by decide), Multiset.count_cons_of_ne (by decide)]
    exact hsum
  | halt c ws h =>
    refine ⟨hpos, ?_⟩
    dsimp only [numBusy] at hsum ⊢
    rw [Multiset.count_erase_of_ne (by decide), Multiset.count_erase_of_ne (by decide)]
    exact hsum
  | acquire c ws hc h =>
    refine ⟨by dsimp only; omega, ?_⟩
    dsimp only [numBusy] at hsum ⊢
    rw [Multiset.count_cons_self, Multiset.count_cons_of_ne (by decide),
      Multiset.count_erase_of_ne (by decide), Multiset.count_erase_of_ne (by decide)]
    omega
  | openFile c ws h =>
    refine ⟨hpos, ?_⟩
    have hmem : 1 ≤ ws.count WorkerPhase.acquired := by
      rwa [Multiset.one_le_count_iff_mem]
    dsimp only [numBusy] at hsum ⊢
    rw [Multiset.count_cons_of_ne (by decide), Multiset.count_erase_self,
      Multiset.count_cons_self, Multiset.count_erase_of_ne (by decide)]
    omega
  | closeFile c ws h =>
    refine ⟨hpos, ?_⟩
    have hmem : 1 ≤ ws.count WorkerPhase.opened := by
      rwa [Multiset.one_le_count_iff_mem]
    dsimp only [numBusy] at hsum ⊢
    rw [Multiset.count_cons_self, Multiset.count_cons_of_ne (by decide),
      Multiset.count_erase_of_ne (by decide), Multiset.count_erase_self]
    omega
  | release c ws h =>
    refine ⟨by dsimp only at hpos ⊢; omega, ?_⟩
    have hmem : 1 ≤ ws.count WorkerPhase.acquired := by
      rwa [Multiset.one_le_count_iff_mem]
    dsimp only [numBusy] at hsum ⊢
    rw [Multiset.count_erase_self, Multiset.count_erase_of_ne (by decide)]
    omega

theorem poolReachable_inv {maxOpen : Int} (h0 : 0 ≤ maxOpen) {s : PoolState}
    (h : PoolReachable maxOpen s) : PoolInv maxOpen s := by
  unfold PoolReachable at h
  induction h with
  | refl =>
    refine ⟨h0, ?_⟩
    simp [numBusy]
  | tail hr hstep ih => exact poolStep_inv ih hstep

/-- C9: at no instant are more than `max_files_open` hash-worker files
simultaneously open: in every pool state reachable from the initial state
(semaphore count `max_files_open`, no workers), the number of workers in
the `opened` phase is at most `max_files_open`.  `File::open` of a user
file is only enabled in the `acquired` phase, i.e. while holding an
`FdSemaphore` guard, and the guard is released only after the file is
closed, mirroring the worker loop of `hash_paths`. -/
theorem c9_fd_budget (maxOpen : Int) (h0 : 0 ≤ maxOpen) (s : PoolState)
    (h : PoolReachable maxOpen s) : (numOpen s.workers : Int) ≤ maxOpen := by
  obtain ⟨hpos, hsum⟩ := poolReachable_inv h0 h
  dsimp only [numOpen, numBusy] at *
  omega

/-- Witness for C1 at a concrete two-entry batch. -/
theorem c1_witness :
    (readMany 3 (openRead
        (writeLog [⟨[97], 1⟩, ⟨[98, 99], 2⟩] freshWrite).2.file.data)).1
      = [Except.ok ⟨[97], 1⟩, Except.ok ⟨[98, 99], 2⟩, Except.error DataErr.Empty] :=
  c1_log_roundtrip [⟨[97], 1⟩, ⟨[98, 99], 2⟩] (by decide)

/-- Witness for C2: one complete record followed by a record truncated by
three bytes. -/
theorem c2_witness :
    (readMany 2 (openRead (encodeList [⟨[97], 1⟩]
        ++ (encodeResult ⟨[98], 2⟩).take ((encodeResult ⟨[98], 2⟩).length - 3)))).1
      = [Except.ok ⟨[97], 1⟩, Except.error DataErr.IOErr] :=
  (c2_truncated_tail [⟨[97], 1⟩] ⟨[98], 2⟩ 3
    (encodeList [⟨[97], 1⟩]
      ++ (encodeResult ⟨[98], 2⟩).take ((encodeResult ⟨[98], 2⟩).length - 3))
    ((encodeResult ⟨[98], 2⟩).take ((encodeResult ⟨[98], 2⟩).length - 3))
    (by decide) (by decide) (by decide) (by decide) rfl rfl).1

/-- Witness for C3 at a concrete armed Coordinator state with an errored
output reader. -/
theorem c3_witness :
    (fallbackStep [⟨[97], 1⟩]
        ⟨some [⟨[98], 2⟩], true, ⟨.Read ⟨.Error, 5, none⟩, ⟨[1, 2, 3], 0⟩⟩⟩).out.file.data
      = encodeList ([⟨[97], 1⟩] ++ [⟨[98], 2⟩]) :=
  (c3_corruption_fallback_once [⟨[97], 1⟩] [⟨[98], 2⟩]
    ⟨some [⟨[98], 2⟩], true, ⟨.Read ⟨.Error, 5, none⟩, ⟨[1, 2, 3], 0⟩⟩⟩
    ⟨.Error, 5, none⟩ rfl rfl rfl rfl).1

/-- Witness for C4: a path observed present in `PriorHashMap` at the gating
check is dropped. -/
theorem c4_witness : maybe_send [(true, false)] = some false :=
  (c4_walker_gating [(true, false)]).2 [] false [] rfl (by simp)

/-- Witness for C5: a stopped reader returns `Empty` and leaves the state
untouched. -/
theorem c5_witness :
    readLog ⟨.Read ⟨.Stopped, 18, none⟩, ⟨encodeList [⟨[97], 1⟩], 18⟩⟩
      = (.error .Empty, ⟨.Read ⟨.Stopped, 18, none⟩, ⟨encodeList [⟨[97], 1⟩], 18⟩⟩) :=
  (c5_read_initial_len_bound
    ⟨.Read ⟨.Stopped, 18, none⟩, ⟨encodeList [⟨[97], 1⟩], 18⟩⟩
    ⟨.Stopped, 18, none⟩ rfl).1 rfl

/-- Witness for C6: a write on a fresh `Read` handle saves the current read
cursor. -/
theorem c6_witness :
    ∃ inner', (writeLog [⟨[97], 1⟩] (openRead (encodeList [⟨[98], 2⟩]))).2.handle
        = .Read inner'
      ∧ inner'.cursor_pos = some (openRead (encodeList [⟨[98], 2⟩])).file.pos :=
  (c6_write_saves_cursor (encodeList [⟨[98], 2⟩]) []).2.1
    (openRead (encodeList [⟨[98], 2⟩])) ⟨.Open, 18, none⟩ [⟨[97], 1⟩] rfl rfl (by simp)

/-- Witness for C7 at a concrete windows code-unit sequence. -/
theorem c7_witness : try_from_bytes_windows (wideToBytes [104, 260]) = .ok [104, 260] :=
  c7_codec_roundtrip.2 [104, 260] (by decide)

/-- Witness for C8: a record whose first byte is 5 instead of 16. -/
theorem c8_witness :
    readLog ⟨.Read ⟨.Open, 100, none⟩, ⟨[5, 0, 0, 0, 0, 0], 0⟩⟩
      = (.error .ParseErr, ⟨.Read ⟨.Error, 100, none⟩, ⟨[5, 0, 0, 0, 0, 0], 6⟩⟩) :=
  (c8_head_len_mismatch [5, 0, 0, 0, 0, 0] [0, 0, 0, 0, 0] 0 100 5
    (by decide) rfl (by decide)).1

/-- Witness for C9 at the initial pool state with budget 2. -/
theorem c9_witness : (numOpen (0 : Multiset WorkerPhase) : Int) ≤ 2 :=
  c9_fd_budget 2 (by decide) ⟨2, 0⟩ Relation.ReflTransGen.refl

/-- Witness for C10: after an IO error (a lone `head_len` byte at EOF), the
reader is latched in `Error` and returns `Empty`. -/
theorem c10_witness :
    (∃ inner, (⟨.Read ⟨.Error, 5, none⟩, ⟨[16], 1⟩⟩ : LogState).handle = .Read inner
        ∧ inner.status = .Error)
    ∧ readLog ⟨.Read ⟨.Error, 5, none⟩, ⟨[16], 1⟩⟩
      = (.error .Empty, ⟨.Read ⟨.Error, 5, none⟩, ⟨[16], 1⟩⟩) :=
  c10_error_latch ⟨.Read ⟨.Open, 5, none⟩, ⟨[16], 0⟩⟩
    ⟨.Read ⟨.Error, 5, none⟩, ⟨[16], 1⟩⟩ .IOErr rfl (by decide)
